import Mathlib

/-!
Verification of the gluon-nlp language-model notebook
(`docs/examples/language_model/language_model.ipynb`).

The notebook's functions (`detach`, `evaluate`, `train`, `get_batch`,
`evaluate_cache`) are shallowly embedded below.  Tensors of per-token
cross-entropy losses are lists of rationals; the autograd graph history of a
recurrent hidden state is a natural number (time steps since the last
`detach`); nested tuples/lists of hidden states are rose trees; printed
perplexities use `Real.exp`; fallible framework calls are modelled in the
`Except` monad.
-/

namespace LMNotebook

/-- Notebook global `log_interval = 200` (cell 6). -/
def log_interval : Nat := 200

/-- Notebook global `bptt = 35` for training (cell 8). -/
def bptt : Nat := 35

/-- Notebook global `grad_clip = 0.25` (cell 8). -/
def grad_clip : ℚ := 1/4

/-- Notebook global `lr = 20` (cell 8). -/
def lr0 : ℚ := 20

/-- Notebook global `bptt = 2000` as reassigned for cache evaluation (cell 36). -/
def cache_bptt : Nat := 2000

/-- Notebook global `val_test_batch_size = 1` (cell 38). -/
def val_test_batch_size : Nat := 1

/-! ### `get_batch` (cell 39)

```python
def get_batch(data_source, i, seq_len=None):
    seq_len = min(seq_len if seq_len else bptt, len(data_source) - 1 - i)
    data = data_source[i:i + seq_len]
    target = data_source[i + 1:i + 1 + seq_len]
    return data, target
```
`data_source` is a token sequence, modelled as a list; Python slicing
`xs[a:b]` is `(xs.drop a).take (b - a)`.  The global `bptt` the function
reads is passed explicitly as `B`.  Python treats both `None` and `0` as
falsy in `seq_len if seq_len else bptt`. -/
def seq_len_arg (B : Nat) : Option Nat → Nat
  | none => B
  | some s => if s = 0 then B else s

def get_batch (B : Nat) (ds : List α) (i : Nat) (sl? : Option Nat) :
    List α × List α :=
  let sl := min (seq_len_arg B sl?) (ds.length - 1 - i)
  ((ds.drop i).take sl, (ds.drop (i + 1)).take sl)

/-! ### Hidden states as rose trees (`detach`, cell 17)

```python
def detach(hidden):
    if isinstance(hidden, (tuple, list)):
        hidden = [detach(i) for i in hidden]
    else:
        hidden = hidden.detach()
    return hidden
```
A hidden state is either a single tensor (a leaf) or a tuple/list of hidden
states.  `hmapT` applies an operation to every tensor leaf, exactly the
recursion of the Python `detach`. -/

mutual

inductive HTree (α : Type u) : Type u where
  | leaf : α → HTree α
  | node : HForest α → HTree α

inductive HForest (α : Type u) : Type u where
  | nil : HForest α
  | cons : HTree α → HForest α → HForest α

end

mutual

/-- Recursion of the notebook's `detach` over a hidden-state tree, with the
per-tensor operation `d` abstracted (the real one is `NDArray.detach`). -/
def hmapT (d : α → α) : HTree α → HTree α
  | .leaf a => .leaf (d a)
  | .node f => .node (hmapF d f)

/-- List part of `hmapT` (the `[detach(i) for i in hidden]` comprehension). -/
def hmapF (d : α → α) : HForest α → HForest α
  | .nil => .nil
  | .cons t f => .cons (hmapT d t) (hmapF d f)

end

/-- Autograd semantics of a tensor: its graph history, the number of recorded
time steps gradients can flow back through.  `NDArray.detach` returns a copy
with no attached graph: history `0`.  The notebook's `detach` is `hmapT` of
that per-tensor operation. -/
def detach : HTree Nat → HTree Nat := hmapT (fun _ => 0)

mutual

/-- Longest graph history among the tensors of a hidden-state tree: the
maximal number of time steps a gradient could flow back through it. -/
def maxHistT : HTree Nat → Nat
  | .leaf a => a
  | .node f => maxHistF f

/-- Forest part of `maxHistT`. -/
def maxHistF : HForest Nat → Nat
  | .nil => 0
  | .cons t f => max (maxHistT t) (maxHistF f)

end

/-- Running the recurrent model over `s` recorded time steps extends every
gradient path through the hidden state by `s`. -/
def fwd_bump (s : Nat) : HTree Nat → HTree Nat := hmapT (· + s)

/-- Graph-history window sizes at each `L.backward()` in the `train` loop
(cell 21).  Per batch the code runs `hiddens = detach(hiddens)`, then the
forward pass over the batch's `seq_len` time steps under `autograd.record()`,
then `L.backward()`; the recorded window is the longest gradient path at that
point.  The updated hidden state is threaded to the next batch. -/
def train_windows : HTree Nat → List Nat → List Nat
  | _, [] => []
  | h, s :: rest =>
    let h2 := fwd_bump s (detach h)
    maxHistT h2 :: train_windows h2 rest

/-- Graph-history window sizes in `evaluate` (cell 19): per batch the model
runs forward over `seq_len` time steps, and only afterwards is
`hidden = detach(hidden)` executed, so the detach takes effect between
batches. -/
def eval_windows : HTree Nat → List Nat → List Nat
  | _, [] => []
  | h, s :: rest =>
    let hf := fwd_bump s h
    maxHistT hf :: eval_windows (detach hf) rest

/-! ### `evaluate` loss accumulation (cell 19)

```python
total_L = 0.0; ntotal = 0
for i, (data, target) in enumerate(data_source):
    ...
    L = loss(output.reshape(-3, -1), target.reshape(-1))
    total_L += mx.nd.sum(L).asscalar()
    ntotal += L.size
return total_L / ntotal
```
Each batch contributes its per-token cross-entropy loss vector `L`,
modelled as a `List ℚ`. -/

/-- Fold of `evaluate`'s `total_L` / `ntotal` accumulation over the batches'
per-token loss vectors. -/
def evaluate_acc (batches : List (List ℚ)) : ℚ × Nat :=
  batches.foldl (fun acc L => (acc.1 + L.sum, acc.2 + L.length)) (0, 0)

/-- Return value of `evaluate`: `total_L / ntotal`. -/
def evaluate (batches : List (List ℚ)) : ℚ :=
  (evaluate_acc batches).1 / ((evaluate_acc batches).2 : ℚ)

/-- Printed perplexity: the notebook always prints `math.exp` of a reported
loss value (cells 19/21 callers). -/
noncomputable def printed_ppl (L : ℚ) : ℝ := Real.exp (L : ℝ)

/-! ### Training-log accumulation (cell 21)

```python
total_L += sum([mx.nd.sum(l).asscalar() for l in Ls])
if i % log_interval == 0 and i > 0:
    cur_L = total_L / log_interval
    print(... math.exp(cur_L) ...)
    total_L = 0.0
```
`log_run K i total cs` processes the remaining per-batch contributions `cs`
(batch `i` first) with accumulator `total`, returning the list of `cur_L`
values printed. -/
def log_run (K : Nat) : Nat → ℚ → List ℚ → List ℚ
  | _, _, [] => []
  | i, total, c :: cs =>
    if i % K = 0 ∧ 0 < i then
      ((total + c) / (K : ℚ)) :: log_run K (i + 1) 0 cs
    else
      log_run K (i + 1) (total + c) cs

/-- The `cur_L` values printed during one epoch of `train`, given the
sequence of per-batch `total_L` contributions. -/
def train_log_prints (K : Nat) (cs : List ℚ) : List ℚ := log_run K 0 0 cs

/-- Steady-state print windows: after the first reset, each print covers
exactly `K` fresh contributions. -/
def tail_windows : Nat → List ℚ → List ℚ
  | 0, _ => []
  | K + 1, xs =>
    if _h : xs.length < K + 1 then []
    else ((xs.take (K + 1)).sum / ((K : ℚ) + 1)) :: tail_windows (K + 1) (xs.drop (K + 1))
  termination_by K xs => xs.length
  decreasing_by
    simp only [List.length_drop]
    omega

/-- Closed form of the printed `cur_L` sequence: the first print averages the
first `K + 1` contributions over `K`; every later print averages exactly `K`
fresh contributions. -/
def log_windows (K : Nat) (cs : List ℚ) : List ℚ :=
  if K = 0 ∨ cs.length ≤ K then []
  else ((cs.take (K + 1)).sum / (K : ℚ)) :: tail_windows K (cs.drop (K + 1))

/-! ### Event trace of the `train` inner loop (cell 21)

```python
for i, (data, target) in enumerate(train_data):
    data_list = gluon.utils.split_and_load(data, context, batch_axis=1, even_split=True)
    target_list = gluon.utils.split_and_load(target, context, batch_axis=1, even_split=True)
    hiddens = detach(hiddens)
    L = 0; Ls = []
    with autograd.record():
        for j, (X, y, h) in enumerate(zip(data_list, target_list, hiddens)):
            output, h = model(X, h)
            batch_L = loss(output.reshape(-3, -1), y.reshape(-1,))
            L = L + batch_L.as_in_context(context[0]) / (len(context) * X.size)
            Ls.append(batch_L / (len(context) * X.size))
            hiddens[j] = h
    L.backward()
    grads = [p.grad(x.context) for p in parameters for x in data_list]
    gluon.utils.clip_global_norm(grads, grad_clip)
    trainer.step(1)
    total_L += sum([mx.nd.sum(l).asscalar() for l in Ls])
    if i % log_interval == 0 and i > 0:
        print(...)
```
Each externally visible operation is an event; a batch produces the events in
the statement order of the source. -/

inductive Ev where
  | splitData
  | splitTarget
  | detachH
  | recordStart
  | fwd (j : Nat)
  | lossCalc (j : Nat)
  | recordStop
  | backwardL
  | collectGrads
  | clipNorm (c : ℚ)
  | stepOpt (n : Nat)
  | accumL
  | logPrint
deriving DecidableEq

/-- Events of the recorded inner device loop: forward pass then loss
computation for each device index `j < nctx`, in order. -/
def innerFwd : Nat → List Ev
  | 0 => []
  | n + 1 => innerFwd n ++ [Ev.fwd n, Ev.lossCalc n]

/-- Event trace of one iteration of the `train` batch loop, for `nctx`
device contexts and batch index `i` (the log print fires when
`i % log_interval == 0 and i > 0`). -/
def batchTrace (nctx i : Nat) : List Ev :=
  [Ev.splitData, Ev.splitTarget, Ev.detachH, Ev.recordStart] ++ innerFwd nctx ++
    [Ev.recordStop, Ev.backwardL, Ev.collectGrads, Ev.clipNorm grad_clip,
      Ev.stepOpt 1, Ev.accumL] ++
    (if i % log_interval = 0 ∧ 0 < i then [Ev.logPrint] else [])

/-- Event trace of the whole batch loop of one epoch over `nb` batches. -/
def epochTrace (nctx nb : Nat) : List Ev :=
  ((List.range nb).map (batchTrace nctx)).flatten

/-- In trace `tr`, every optimizer step is immediately preceded by a
global-norm gradient clip with threshold `grad_clip`. -/
def clipBeforeStep (tr : List Ev) : Prop :=
  ∀ i, tr.get? (i + 1) = some (Ev.stepOpt 1) →
    tr.get? i = some (Ev.clipNorm grad_clip)

/-! ### `gluon.utils.clip_global_norm` (framework primitive)

Modelled from its contract, which the spec and claim C7 assume: compute the
global L2 norm of all gradient arrays; if it exceeds `max_norm`, scale every
gradient by `max_norm / total_norm`, otherwise leave them unchanged.  The
flat list `gs` holds the entries of all gradient arrays. -/

/-- Global L2 norm of a flat list of gradient entries. -/
noncomputable def gnorm (gs : List ℝ) : ℝ :=
  Real.sqrt (gs.map (fun g => g ^ 2)).sum

/-- Idealized `gluon.utils.clip_global_norm`. -/
noncomputable def clip_global_norm (gs : List ℝ) (maxNorm : ℝ) : List ℝ :=
  if gnorm gs ≤ maxNorm then gs
  else gs.map (fun g => g * (maxNorm / gnorm gs))

/-! ### `gluon.utils.split_and_load` along the batch axis (cell 21)

A batch tensor of shape `(seq_len, batch_size)` is represented by its list of
columns along axis 1 (one column per batch element).  With `even_split=True`
the utility cuts the batch axis into `len(context)` consecutive chunks of
equal size `batch_size / len(context)`. -/

/-- Cut `n` consecutive chunks of size `sz` from the front of `cols`. -/
def split_chunks : Nat → List σ → Nat → List (List σ)
  | 0, _, _ => []
  | n + 1, cols, sz => cols.take sz :: split_chunks n (cols.drop sz) sz

/-- Even split of the batch axis across `n` device contexts. -/
def split_and_load (cols : List σ) (n : Nat) : List (List σ) :=
  split_chunks n cols (cols.length / n)

/-- Backpropagated loss of one training batch.  `devLs` pairs each device's
per-token loss vector `batch_L` with the element count `X.size` of its data
shard; `n = len(context)`.  The code folds
`L = L + batch_L / (len(context) * X.size)` over the devices and
`L.backward()` sums the resulting vector, so the backpropagated scalar is the
fold of the per-device loss sums weighted by `1 / (n * X.size)`. -/
def train_batch_loss (n : Nat) (devLs : List (List ℚ × Nat)) : ℚ :=
  devLs.foldl (fun acc p => acc + p.1.sum / ((n : ℚ) * (p.2 : ℚ))) 0

/-! ### `evaluate_cache` (cell 40)

```python
def evaluate_cache(model, data_source, batch_size, ctx):
    total_L = 0.0
    hidden = model.begin_state(batch_size=batch_size, func=mx.nd.zeros, ctx=ctx)
    next_word_history = None; cache_history = None
    for i in range(0, len(data_source) - 1, bptt):
        if i > 0:
            print('Batch %d, ppl %f' % (i, math.exp(total_L / i)))
        if i == bptt:
            return total_L / i
        data, target = get_batch(data_source, i)
        ...
        outs, next_word_history, cache_history, hidden = model(
            data, target, next_word_history, cache_history, hidden)
        for out in outs:
            L += (-mx.nd.log(out)).asscalar()
        total_L += L / data.shape[1]
        hidden = detach(hidden)
    return total_L / len(data_source)
```
The library cache model (from `nlp.model.train.get_cache_model`) is an
opaque function `model` from a `(data, target)` window and its internal state
(`next_word_history`, `cache_history`, `hidden`) to the output probabilities
`outs` and the next state; `dS` is the hidden-state detach on that state.
`bs = data.shape[1]` is the batch size and `t` the global `bptt` (2000 at
call time), which `get_batch` also reads. -/

/-- Sum of negative log-probabilities the notebook accumulates in `L`. -/
noncomputable def nll_sum (outs : List ℝ) : ℝ :=
  (outs.map (fun o => -Real.log o)).sum

/-- Loop of `evaluate_cache` from window start `i` with accumulator `total`
and model state `s`. -/
noncomputable def evaluate_cache_loop (model : List α × List α → σ → List ℝ × σ)
    (dS : σ → σ) (bs t : Nat) (ht : 0 < t) (ds : List α) :
    Nat → ℝ → σ → ℝ
  | i, total, s =>
    if _hi : i < ds.length - 1 then
      if i = t then total / (i : ℝ)
      else
        let w := get_batch t ds i none
        let r := model w s
        evaluate_cache_loop model dS bs t ht ds (i + t)
          (total + nll_sum r.1 / (bs : ℝ)) (dS r.2)
    else total / (ds.length : ℝ)
  termination_by i => ds.length - i
  decreasing_by omega

/-- The notebook's `evaluate_cache`. -/
noncomputable def evaluate_cache (model : List α × List α → σ → List ℝ × σ)
    (dS : σ → σ) (bs t : Nat) (ht : 0 < t) (ds : List α) (s0 : σ) : ℝ :=
  evaluate_cache_loop model dS bs t ht ds 0 0 s0

/-- The sequence of `outs` probability lists the cache model returns during
`evaluate_cache`, one per processed window, mirroring the loop's control flow
exactly. -/
def cache_outs_loop (model : List α × List α → σ → List ℝ × σ)
    (dS : σ → σ) (t : Nat) (ht : 0 < t) (ds : List α) :
    Nat → σ → List (List ℝ)
  | i, s =>
    if _hi : i < ds.length - 1 then
      if i = t then []
      else
        let w := get_batch t ds i none
        let r := model w s
        r.1 :: cache_outs_loop model dS t ht ds (i + t) (dS r.2)
    else []
  termination_by i => ds.length - i
  decreasing_by omega

/-- Aggregation `evaluate_cache` performs on the model's output probability
sequences alone: sum each window's negative log-probabilities, divide by the
batch size, sum across windows, and divide by `bptt` on early return (which
happens exactly when a second window exists, i.e. `t < len(ds) - 1`), else by
`len(ds)`. -/
noncomputable def cache_nll_result (bs t n : Nat) (wins : List (List ℝ)) : ℝ :=
  (wins.map (fun outs => nll_sum outs / (bs : ℝ))).sum /
    (if t < n - 1 then (t : ℝ) else (n : ℝ))

/-! ### Epoch-end logic of `train` (cell 21, lines 331-339)

```python
if val_L < best_val:
    best_val = val_L
    test_L = evaluate(model, test_data, batch_size, context[0])
    model.save_parameters(...)
    print('test loss %.2f, test ppl %.2f' % ...)
else:
    lr = lr*0.25
    print('Learning rate now %f' % (lr))
    trainer.set_learning_rate(lr)
```
`best_val` starts at `float("Inf")`, modelled as `none`. -/

structure EpochSt where
  best_val : Option ℚ
  lr : ℚ
  trainer_lr : ℚ
  saved : List Nat
  test_evals : Nat
deriving DecidableEq

/-- Comparison `val_L < best_val` with `best_val = float("Inf")` as `none`. -/
def val_lt (v : ℚ) (b : Option ℚ) : Bool :=
  match b with
  | none => true
  | some x => decide (v < x)

/-- State update at the end of epoch `epoch` in `train`, given the epoch's
validation loss `val_L`. -/
def epoch_end (epoch : Nat) (val_L : ℚ) (st : EpochSt) : EpochSt :=
  if val_lt val_L st.best_val then
    { st with
        best_val := some val_L
        test_evals := st.test_evals + 1
        saved := st.saved ++ [epoch] }
  else
    { st with
        lr := st.lr * (1/4)
        trainer_lr := st.lr * (1/4) }

/-! ### Error flow (claim C4)

None of the notebook's functions contains a `try`/`except`: each is a plain
sequence of framework calls.  Below the same functions are embedded in the
`Except` monad with every underlying framework call abstracted as a fallible
operation, so that error propagation is provable. -/

/-- `get_batch` with NDArray slicing (`data_source[a:b]`) as a fallible
framework call `sliceOp a b`; `len` is `len(data_source)`, `B` the global
`bptt`. -/
def get_batchE (sliceOp : Nat → Nat → Except ε (List α)) (B len i : Nat) :
    Except ε (List α × List α) :=
  let sl := min B (len - 1 - i)
  do
    let d ← sliceOp i (i + sl)
    let tg ← sliceOp (i + 1) (i + 1 + sl)
    pure (d, tg)

mutual

/-- The notebook's `detach` with the per-tensor `NDArray.detach` as a
fallible framework call `det`. -/
def detachTE (det : α → Except ε α) : HTree α → Except ε (HTree α)
  | .leaf a => do pure (HTree.leaf (← det a))
  | .node f => do pure (HTree.node (← detachFE det f))

/-- Forest part of `detachTE` (the list comprehension). -/
def detachFE (det : α → Except ε α) : HForest α → Except ε (HForest α)
  | .nil => pure .nil
  | .cons t f => do pure (HForest.cons (← detachTE det t) (← detachFE det f))

end

mutual

/-- Tensor leaves of a hidden-state tree, left to right. -/
def leavesT : HTree α → List α
  | .leaf a => [a]
  | .node f => leavesF f

/-- Forest part of `leavesT`. -/
def leavesF : HForest α → List α
  | .nil => []
  | .cons t f => leavesT t ++ leavesF f

end

/-- Loop body sequence of `evaluate` in the `Except` monad.  Per batch, in
source order: `data.as_in_context`, `target.as_in_context`, the model forward
pass, the (pure) `detach` of the hidden state, and the loss computation;
`total_L` and `ntotal` accumulate and the final result is their quotient. -/
def evaluateE_go (asCtx : τ → Except ε τ) (fwdOp : τ → η → Except ε (ω × η))
    (lossOp : ω → τ → Except ε (List ℚ)) (dH : η → η) :
    List (τ × τ) → η → ℚ → Nat → Except ε ℚ
  | [], _, total, ntotal => pure (total / (ntotal : ℚ))
  | (d, tg) :: rest, h, total, ntotal => do
    let d' ← asCtx d
    let tg' ← asCtx tg
    let r ← fwdOp d' h
    let h2 := dH r.2
    let L ← lossOp r.1 tg'
    evaluateE_go asCtx fwdOp lossOp dH rest h2 (total + L.sum) (ntotal + L.length)

/-- The notebook's `evaluate` in the `Except` monad. -/
def evaluateE (asCtx : τ → Except ε τ) (fwdOp : τ → η → Except ε (ω × η))
    (lossOp : ω → τ → Except ε (List ℚ)) (dH : η → η)
    (batches : List (τ × τ)) (h0 : η) : Except ε ℚ :=
  evaluateE_go asCtx fwdOp lossOp dH batches h0 0 0

/-- Batch loop of one `train` epoch in the `Except` monad: `body i` is the
composite framework computation for batch `i` (split, forward, loss,
backward, clip, step), returning that batch's `total_L` contribution. -/
def train_batchesE (body : Nat → Except ε ℚ) : Nat → Nat → Except ε Unit
  | _, 0 => pure ()
  | i, n + 1 => do
    let _ ← body i
    train_batchesE body (i + 1) n

/-- Epoch loop of `train` in the `Except` monad: per epoch the batch loop,
then the validation evaluation `valE`; on improvement the test evaluation
`testE` and the checkpoint `saveE` also run. -/
def trainE_epochs (nb : Nat) (body : Nat → Nat → Except ε ℚ)
    (valE testE : Nat → Except ε ℚ) (saveE : Nat → Except ε Unit) :
    Nat → Nat → Option ℚ → Except ε Unit
  | _, 0, _ => pure ()
  | ep, n + 1, best => do
    train_batchesE (body ep) 0 nb
    let v ← valE ep
    if val_lt v best then do
      let _ ← testE ep
      let _ ← saveE ep
      trainE_epochs nb body valE testE saveE (ep + 1) n (some v)
    else
      trainE_epochs nb body valE testE saveE (ep + 1) n best

/-- The notebook's `train` error flow over `nepochs` epochs of `nb` batches. -/
def trainE (nb nepochs : Nat) (body : Nat → Nat → Except ε ℚ)
    (valE testE : Nat → Except ε ℚ) (saveE : Nat → Except ε Unit) :
    Except ε Unit :=
  trainE_epochs nb body valE testE saveE 0 nepochs none

/-- Loop of `evaluate_cache` in the `Except` monad, with the cache-model call
for the window starting at `i` as the fallible operation `modelE i`. -/
def evaluate_cacheE_loop (modelE : Nat → σ → Except ε (ℚ × σ))
    (dS : σ → σ) (bs t : Nat) (ht : 0 < t) (n : Nat) :
    Nat → ℚ → σ → Except ε ℚ
  | i, total, s =>
    if _hi : i < n - 1 then
      if i = t then pure (total / (i : ℚ))
      else do
        let r ← modelE i s
        evaluate_cacheE_loop modelE dS bs t ht n (i + t)
          (total + r.1 / (bs : ℚ)) (dS r.2)
    else pure (total / (n : ℚ))
  termination_by i => n - i
  decreasing_by omega

/-! ### Concrete demonstration inputs -/

/-- Per-batch training-log contributions exhibiting the first-print window:
batch 0 contributes loss 1, batches 1..200 contribute 0. -/
def demo_contribs : List ℚ := 1 :: List.replicate 200 0

/-- Library-side interpolation of a cache distribution `c` with a softmax
distribution `s` (performed inside the external cache model, with mixing
weight `θ`). -/
noncomputable def blendDist (θ : ℝ) (c s : List ℝ) : List ℝ :=
  List.zipWith (fun x y => θ * x + (1 - θ) * y) c s

/-- Cache distribution of demonstration model 1. -/
noncomputable def demo_cache1 : List ℝ := [1/2]

/-- Cache distribution of demonstration model 2. -/
noncomputable def demo_cache2 : List ℝ := [1/4]

/-- Softmax distribution shared by both demonstration models. -/
noncomputable def demo_soft : List ℝ := [1/2]

/-- Demonstration cache model 1: blends its cache and softmax distributions
with `θ = 1/2` internally before returning `outs`. -/
noncomputable def demo_model1 : List Nat × List Nat → Unit → List ℝ × Unit :=
  fun _ _ => (blendDist (1/2) demo_cache1 demo_soft, ())

/-- Demonstration cache model 2: blends a different cache distribution with
`θ = 0` internally, producing the same `outs`. -/
noncomputable def demo_model2 : List Nat × List Nat → Unit → List ℝ × Unit :=
  fun _ _ => (blendDist 0 demo_cache2 demo_soft, ())

/-- Short token sequence: a single `evaluate_cache` window. -/
def demo_ds : List Nat := [0, 1, 2]

/-- Constant demonstration cache model returning probability one. -/
noncomputable def demo_cmodel : List Nat × List Nat → Unit → List ℝ × Unit :=
  fun _ _ => ([1], ())

/-- Token sequence longer than the cache window `bptt = 2000`. -/
def demo_long_ds : List Nat := List.replicate 2002 0

/-! ## Theorems -/

/-- C9: for every `data_source` and every index `i` with
`0 ≤ i ≤ len(data_source) - 2`, `get_batch(data_source, i)` returns a pair
`(data, target)` of equal length `min(bptt, len(data_source) - 1 - i)`, where
`data[k] = data_source[i + k]` and `target[k] = data_source[i + 1 + k]`:
`target` is `data` shifted forward by one token.  `B` is the global `bptt`
the function reads. -/
theorem C9_get_batch_shifted_window (B : Nat) (ds : List α) (i : Nat)
    (_h : i + 2 ≤ ds.length) :
    (get_batch B ds i none).1.length = min B (ds.length - 1 - i) ∧
    (get_batch B ds i none).2.length = (get_batch B ds i none).1.length ∧
    (∀ k, k < (get_batch B ds i none).1.length →
      (get_batch B ds i none).1.get? k = ds.get? (i + k) ∧
      (get_batch B ds i none).2.get? k = ds.get? (i + 1 + k)) := by
  simp only [get_batch, seq_len_arg, List.length_take, List.length_drop]
  refine ⟨by omega, by omega, ?_⟩
  intro k hk
  constructor
  · rw [List.get?_take (by omega), List.get?_drop]
  · rw [List.get?_take (by omega), List.get?_drop]

/-- Closed witness for C9 at `B = 2`, `ds = [10, 11, 12, 13]`, `i = 1`. -/
theorem C9_witness :
    (1 + 2 ≤ ([10, 11, 12, 13] : List Nat).length) ∧
    ((get_batch 2 [10, 11, 12, 13] 1 none).1.length =
        min 2 (([10, 11, 12, 13] : List Nat).length - 1 - 1) ∧
      (get_batch 2 [10, 11, 12, 13] 1 none).2.length =
        (get_batch 2 [10, 11, 12, 13] 1 none).1.length ∧
      (∀ k, k < (get_batch 2 [10, 11, 12, 13] 1 none).1.length →
        (get_batch 2 [10, 11, 12, 13] 1 none).1.get? k =
          ([10, 11, 12, 13] : List Nat).get? (1 + k) ∧
        (get_batch 2 [10, 11, 12, 13] 1 none).2.get? k =
          ([10, 11, 12, 13] : List Nat).get? (1 + 1 + k))) :=
  ⟨by decide, C9_get_batch_shifted_window 2 [10, 11, 12, 13] 1 (by decide)⟩

/-- Accumulator form of `evaluate`'s fold. -/
theorem evaluate_acc_go (bs : List (List ℚ)) (a : ℚ) (n : Nat) :
    bs.foldl (fun acc L => (acc.1 + L.sum, acc.2 + L.length)) (a, n) =
      (a + (bs.map List.sum).sum, n + (bs.map List.length).sum) := by
  induction bs generalizing a n with
  | nil => simp
  | cons L rest ih =>
    simp only [List.foldl_cons, List.map_cons, List.sum_cons, ih,
      Prod.mk.injEq]
    exact ⟨by ring, by omega⟩

/-- `evaluate` returns the total per-token loss divided by the total token
count. -/
theorem evaluate_eq_sum_div (bs : List (List ℚ)) :
    evaluate bs = (bs.map List.sum).sum / (((bs.map List.length).sum : Nat) : ℚ) := by
  simp only [evaluate, evaluate_acc, evaluate_acc_go, Nat.zero_add, zero_add]

/-- With a zero step the Python `range` would raise, and the Lean model
prints nothing: `i % 0 = i`, so the print guard `i % K = 0 ∧ 0 < i` never
fires. -/
theorem log_run_zero (i : Nat) (total : ℚ) (cs : List ℚ) :
    log_run 0 i total cs = [] := by
  induction cs generalizing i total with
  | nil => rfl
  | cons c cs ih =>
    rw [log_run]
    have : ¬(i % 0 = 0 ∧ 0 < i) := by omega
    rw [if_neg this]
    exact ih _ _

/-- Block lemma for `log_run`: from position `i`, if the next print happens
after `d` more contributions, the run either ends (fewer than `d + 1`
contributions remain) or prints the accumulated `d + 1` contributions over
`K` and restarts with a zero accumulator. -/
theorem log_run_block (K : Nat) :
    ∀ (d i : Nat) (cs : List ℚ) (total : ℚ),
      (i + d) % K = 0 → 0 < i + d →
      (∀ k, k < d → ¬((i + k) % K = 0 ∧ 0 < i + k)) →
      log_run K i total cs =
        if cs.length ≤ d then []
        else ((total + (cs.take (d + 1)).sum) / (K : ℚ)) ::
          log_run K (i + d + 1) 0 (cs.drop (d + 1)) := by
  intro d
  induction d with
  | zero =>
    intro i cs total h0 hpos _
    match cs with
    | [] => simp [log_run]
    | c :: cs' =>
      rw [log_run, if_pos ⟨by simpa using h0, by simpa using hpos⟩]
      simp
  | succ d ih =>
    intro i cs total h0 hpos hk
    match cs with
    | [] => simp [log_run]
    | c :: cs' =>
      rw [log_run]
      have hno : ¬(i % K = 0 ∧ 0 < i) := by
        have h := hk 0 (by omega)
        simpa using h
      rw [if_neg hno]
      rw [ih (i + 1) cs' (total + c)
        (by rw [show i + 1 + d = i + (d + 1) by omega]; exact h0)
        (by omega)
        (fun k hlt => by
          have h := hk (k + 1) (by omega)
          rw [show i + 1 + k = i + (k + 1) by omega]
          exact h)]
      simp only [List.length_cons, List.take_succ_cons, List.sum_cons,
        List.drop_succ_cons]
      by_cases hlen : cs'.length ≤ d
      · rw [if_pos hlen, if_pos (by omega)]
      · rw [if_neg hlen, if_neg (by omega)]
        congr 2
        · ring
        · omega

/-- After any reset at a print position, `log_run` produces the steady-state
`K`-sized windows. -/
theorem log_run_tail (K : Nat) (hK : 0 < K) :
    ∀ (n : Nat) (cs : List ℚ), cs.length = n → ∀ q, 0 < q →
      log_run K (q * K + 1) 0 cs = tail_windows K cs := by
  intro n
  induction n using Nat.strong_induction_on with
  | _ n ih =>
    intro cs hlen q hq
    obtain ⟨K', rfl⟩ : ∃ K', K = K' + 1 := ⟨K - 1, by omega⟩
    have hblock := log_run_block (K' + 1) K' (q * (K' + 1) + 1) cs 0
      (by rw [show q * (K' + 1) + 1 + K' = (q + 1) * (K' + 1) by ring]
          exact Nat.mul_mod_left _ _)
      (by omega)
      (fun k hlt => by
        intro hcon
        have h1 : q * (K' + 1) + 1 + k = 1 + k + q * (K' + 1) := by omega
        rw [h1, Nat.add_mul_mod_self_right] at hcon
        have h2 : (1 + k) % (K' + 1) = 1 + k := Nat.mod_eq_of_lt (by omega)
        omega)
    rw [hblock, tail_windows]
    by_cases hlen2 : cs.length ≤ K'
    · rw [if_pos hlen2, dif_pos (by omega)]
    · rw [if_neg hlen2, dif_neg (by omega)]
      have hrec : q * (K' + 1) + 1 + K' + 1 = (q + 1) * (K' + 1) + 1 := by ring
      rw [hrec]
      have hdrop : (cs.drop (K' + 1)).length < n := by
        simp only [List.length_drop]; omega
      rw [ih _ (by omega) _ rfl (q + 1) (by omega)]
      have hcast : (((K' : ℚ)) + 1) = ((K' + 1 : Nat) : ℚ) := by push_cast; ring
      rw [hcast]
      congr 1
      rw [zero_add]

/-- The `cur_L` values printed in one epoch of `train` are exactly the
`log_windows` closed form: the first print averages the first
`K + 1` contributions over `K`; later prints average exactly `K` fresh
contributions. -/
theorem train_log_prints_eq (K : Nat) (cs : List ℚ) :
    train_log_prints K cs = log_windows K cs := by
  rcases Nat.eq_zero_or_pos K with hK | hK
  · subst hK
    rw [train_log_prints, log_run_zero, log_windows, if_pos (Or.inl rfl)]
  · rw [train_log_prints]
    have hblock := log_run_block K K 0 cs 0
      (by simp [Nat.mod_self]) (by omega)
      (fun k hlt => by
        intro hcon
        rw [Nat.zero_add, Nat.mod_eq_of_lt hlt] at hcon
        omega)
    simp only [Nat.zero_add] at hblock
    rw [hblock, log_windows]
    by_cases hlen : cs.length ≤ K
    · rw [if_pos hlen, if_pos (Or.inr hlen)]
    · rw [if_neg hlen, if_neg (by push_neg; exact ⟨by omega, by omega⟩)]
      rw [show K + 1 = 1 * K + 1 by omega]
      rw [log_run_tail K hK _ _ rfl 1 (by omega)]
      simp

/-- Empty input produces no steady-state windows. -/
theorem tail_windows_nil (K : Nat) : tail_windows K [] = [] := by
  match K with
  | 0 => rw [tail_windows]
  | K' + 1 => rw [tail_windows, dif_pos (by simp)]

/-- C2 (amended): every perplexity the notebook reports is `math.exp` of a
loss value.  `evaluate` returns the sum of per-token cross-entropy losses
divided by the total token count, and the printed ppl is `exp` of that
average.  The training log prints `exp(cur_L)`, where the `cur_L` sequence is
given by `log_windows`: the first print of an epoch averages the first
`log_interval + 1` per-batch mean losses over `log_interval` (an off-by-one:
batch 0's loss is included in the first window), while each later print
averages exactly `log_interval` fresh per-batch mean losses — which, when
every batch holds the same token count `n * N`, equals the average per-token
loss over those `log_interval` batches. -/
theorem C2_ppl_is_exp_of_average_loss :
    (∀ bs : List (List ℚ),
      evaluate bs =
        (bs.map List.sum).sum / (((bs.map List.length).sum : Nat) : ℚ) ∧
      printed_ppl (evaluate bs) =
        Real.exp
          (((bs.map List.sum).sum / (((bs.map List.length).sum : Nat) : ℚ) : ℚ) : ℝ)) ∧
    (∀ (K : Nat) (cs : List ℚ), train_log_prints K cs = log_windows K cs) ∧
    (∀ (sums : List ℚ) (n N K : Nat),
      (sums.map (fun s => s / ((n : ℚ) * (N : ℚ)))).sum / (K : ℚ) =
        sums.sum / ((K : ℚ) * (n : ℚ) * (N : ℚ))) := by
  refine ⟨fun bs => ⟨evaluate_eq_sum_div bs, ?_⟩, train_log_prints_eq, ?_⟩
  · rw [printed_ppl, evaluate_eq_sum_div]
  · intro sums n N K
    have h : (sums.map (fun s => s / ((n : ℚ) * (N : ℚ)))).sum =
        sums.sum / ((n : ℚ) * (N : ℚ)) := by
      induction sums with
      | nil => simp
      | cons s ss ih => simp [ih, add_div]
    rw [h, div_div]
    ring_nf

/-- C2 fails as stated: on `demo_contribs` (batch 0 contributes mean loss 1,
batches 1..200 contribute 0) the first training-log print is
`exp(1/200)` — `train` has accumulated 201 batch contributions when batch
index 200 triggers the print and divides by `log_interval = 200` — whereas
the average loss over the last `log_interval` batches (batches 1..200) is 0,
so the claimed printed value would be `exp 0`. -/
theorem C2_counterexample :
    train_log_prints log_interval demo_contribs = [1/200] ∧
    ((demo_contribs.drop 1).take log_interval).sum / ((log_interval : Nat) : ℚ) = 0 ∧
    printed_ppl (1/200) ≠ printed_ppl 0 := by
  refine ⟨?_, ?_, ?_⟩
  · rw [train_log_prints_eq, log_windows,
      if_neg (by norm_num [demo_contribs, log_interval])]
    have htake : demo_contribs.take (log_interval + 1) = demo_contribs :=
      List.take_of_length_le (by norm_num [demo_contribs, log_interval])
    have hdrop : demo_contribs.drop (log_interval + 1) = [] :=
      List.drop_eq_nil_of_le (by norm_num [demo_contribs, log_interval])
    rw [htake, hdrop, tail_windows_nil]
    norm_num [demo_contribs, List.sum_replicate, log_interval]
  · norm_num [demo_contribs, List.take_replicate, List.sum_replicate,
      log_interval]
  · rw [printed_ppl, printed_ppl, ne_eq, Real.exp_eq_exp]
    norm_num

mutual

/-- The notebook's `detach` clears the graph history of every tensor in a
hidden-state tree. -/
theorem detach_maxHistT : ∀ h : HTree Nat, maxHistT (detach h) = 0
  | .leaf _ => rfl
  | .node f => detach_maxHistF f

/-- Forest part of `detach_maxHistT`. -/
theorem detach_maxHistF : ∀ f : HForest Nat, maxHistF (hmapF (fun _ => 0) f) = 0
  | .nil => rfl
  | .cons t f => by
    have h1 : maxHistT (hmapT (fun _ => 0) t) = 0 := detach_maxHistT t
    have h2 := detach_maxHistF f
    rw [hmapF, maxHistF, h1, h2]
    exact Nat.max_self 0

end

mutual

/-- A forward pass over `s` time steps extends the longest gradient path by
at most `s`. -/
theorem bump_maxHistT (s : Nat) : ∀ h : HTree Nat,
    maxHistT (fwd_bump s h) ≤ s + maxHistT h
  | .leaf a => by simp [fwd_bump, hmapT, maxHistT, Nat.add_comm]
  | .node f => by
    have hf := bump_maxHistF s f
    simpa [fwd_bump, hmapT, maxHistT] using hf

/-- Forest part of `bump_maxHistT`. -/
theorem bump_maxHistF (s : Nat) : ∀ f : HForest Nat,
    maxHistF (hmapF (· + s) f) ≤ s + maxHistF f
  | .nil => by simp [hmapF, maxHistF]
  | .cons t f => by
    have h1 : maxHistT (hmapT (· + s) t) ≤ s + maxHistT t := bump_maxHistT s t
    have h2 := bump_maxHistF s f
    rw [hmapF, maxHistF, maxHistF]
    omega

end

/-- Every backward window in `train` is bounded by the longest batch
sequence length: the per-batch `hiddens = detach(hiddens)` truncates the
graph before each forward pass. -/
theorem train_windows_le (B : Nat) (h : HTree Nat) (ss : List Nat)
    (hss : ∀ s ∈ ss, s ≤ B) : ∀ w ∈ train_windows h ss, w ≤ B := by
  induction ss generalizing h with
  | nil => simp [train_windows]
  | cons s rest ih =>
    intro w hw
    simp only [train_windows] at hw
    rcases List.mem_cons.mp hw with rfl | hw'
    · have hb := bump_maxHistT s (detach h)
      have hd := detach_maxHistT h
      have hsB : s ≤ B := hss s (by simp)
      simp only [fwd_bump] at hb ⊢
      omega
    · exact ih _ (fun x hx => hss x (by simp [hx])) w hw'

/-- Every window in `evaluate` is bounded by the longest batch sequence
length: the hidden state is detached between batches, and starts at the
zero `begin_state`. -/
theorem eval_windows_le (B : Nat) (h : HTree Nat) (ss : List Nat)
    (h0 : maxHistT h = 0) (hss : ∀ s ∈ ss, s ≤ B) :
    ∀ w ∈ eval_windows h ss, w ≤ B := by
  induction ss generalizing h with
  | nil => simp [eval_windows]
  | cons s rest ih =>
    intro w hw
    simp only [eval_windows] at hw
    rcases List.mem_cons.mp hw with rfl | hw'
    · have hb := bump_maxHistT s h
      have hsB : s ≤ B := hss s (by simp)
      simp only [fwd_bump] at hb ⊢
      omega
    · exact ih _ (detach_maxHistT _) (fun x hx => hss x (by simp [hx])) w hw'

/-- C3: backpropagation through time is truncated to a fixed window.
`detach` recursively clears the autograd history of every tensor in a
nested hidden state; in `train` the hidden states are detached before each
gradient computation, so every backward window is at most the batch sequence
length, hence at most `bptt`; in `evaluate` the hidden state is likewise
detached between batches; and the training `bptt` is 35.  Sequence lengths
of the batchified training data are at most `bptt` (`CorpusBPTTBatchify`),
which is the hypothesis on `ss`. -/
theorem C3_bptt_truncation :
    (∀ h : HTree Nat, maxHistT (detach h) = 0) ∧
    (∀ (h : HTree Nat) (ss : List Nat), (∀ s ∈ ss, s ≤ bptt) →
      ∀ w ∈ train_windows h ss, w ≤ bptt) ∧
    (∀ (h : HTree Nat) (ss : List Nat), maxHistT h = 0 →
      (∀ s ∈ ss, s ≤ bptt) → ∀ w ∈ eval_windows h ss, w ≤ bptt) ∧
    bptt = 35 :=
  ⟨detach_maxHistT, fun h ss hss => train_windows_le bptt h ss hss,
    fun h ss h0 hss => eval_windows_le bptt h ss h0 hss, rfl⟩

/-- Closed witness for C3 on a nested hidden state with stale history 7 and
batch sequence lengths 35 and 2. -/
theorem C3_witness :
    (∀ s ∈ [35, 2], s ≤ bptt) ∧
    (∀ w ∈ train_windows (HTree.node (.cons (.leaf 7) .nil)) [35, 2],
      w ≤ bptt) ∧
    (maxHistT (HTree.leaf 0) = 0 ∧
      ∀ w ∈ eval_windows (HTree.leaf 0) [35, 2], w ≤ bptt) :=
  ⟨by decide,
    C3_bptt_truncation.2.1 (HTree.node (.cons (.leaf 7) .nil)) [35, 2]
      (by decide),
    by decide,
    C3_bptt_truncation.2.2.1 (HTree.leaf 0) [35, 2] (by decide) (by decide)⟩

/-- Length of the recorded inner device loop. -/
theorem innerFwd_length (n : Nat) : (innerFwd n).length = 2 * n := by
  induction n with
  | zero => rfl
  | succ n ih =>
    rw [innerFwd]
    simp [ih]
    omega

/-- Positions of the forward and loss events for device `j`. -/
theorem innerFwd_get? (n j : Nat) (hj : j < n) :
    (innerFwd n).get? (2 * j) = some (Ev.fwd j) ∧
    (innerFwd n).get? (2 * j + 1) = some (Ev.lossCalc j) := by
  induction n with
  | zero => omega
  | succ n ih =>
    rw [innerFwd]
    have hlen := innerFwd_length n
    rcases Nat.lt_or_ge j n with h | h
    · constructor
      · rw [List.get?_append (by omega)]
        exact (ih h).1
      · rw [List.get?_append (by omega)]
        exact (ih h).2
    · have hj' : j = n := by omega
      subst hj'
      constructor
      · rw [List.get?_append_right (by omega),
          show 2 * j - (innerFwd j).length = 0 by omega]
        rfl
      · rw [List.get?_append_right (by omega),
          show 2 * j + 1 - (innerFwd j).length = 1 by omega]
        rfl

/-- The recorded inner loop contains no optimizer step. -/
theorem stepOpt_not_mem_innerFwd (n : Nat) : Ev.stepOpt 1 ∉ innerFwd n := by
  induction n with
  | zero => simp [innerFwd]
  | succ n ih => simp [innerFwd, ih]

/-- C1: for every training batch the steps occur in order — the forward pass
and the cross-entropy loss computation of every device happen between
`autograd.record()` entry and exit, then `L.backward()`, then the gradient
clip by global norm, then exactly one optimizer step (`trainer.step(1)`). -/
theorem C1_train_batch_order (nctx i : Nat) :
    (batchTrace nctx i).count (Ev.stepOpt 1) = 1 ∧
    ∃ rs re b c s : Nat,
      rs < re ∧ re < b ∧ b < c ∧ c < s ∧
      (batchTrace nctx i).get? rs = some Ev.recordStart ∧
      (batchTrace nctx i).get? re = some Ev.recordStop ∧
      (batchTrace nctx i).get? b = some Ev.backwardL ∧
      (batchTrace nctx i).get? c = some (Ev.clipNorm grad_clip) ∧
      (batchTrace nctx i).get? s = some (Ev.stepOpt 1) ∧
      ∀ j, j < nctx → ∃ f l : Nat,
        rs < f ∧ f < l ∧ l < re ∧
        (batchTrace nctx i).get? f = some (Ev.fwd j) ∧
        (batchTrace nctx i).get? l = some (Ev.lossCalc j) := by
  have hI := innerFwd_length nctx
  have hpost : ∀ m, m < 6 → (batchTrace nctx i).get? (4 + 2 * nctx + m) =
      [Ev.recordStop, Ev.backwardL, Ev.collectGrads, Ev.clipNorm grad_clip,
        Ev.stepOpt 1, Ev.accumL].get? m := by
    intro m hm
    rw [batchTrace]
    rw [List.get?_append (by
      simp only [List.length_append, List.length_cons, List.length_nil, hI]
      omega)]
    rw [List.get?_append_right (by
      simp only [List.length_append, List.length_cons, List.length_nil, hI]
      omega)]
    congr 1
    simp only [List.length_append, List.length_cons, List.length_nil, hI]
    omega
  constructor
  · rw [batchTrace]
    simp only [List.count_append]
    have hc1 : ([Ev.splitData, Ev.splitTarget, Ev.detachH,
        Ev.recordStart] : List Ev).count (Ev.stepOpt 1) = 0 := by decide
    have hc2 : (innerFwd nctx).count (Ev.stepOpt 1) = 0 :=
      List.count_eq_zero.mpr (stepOpt_not_mem_innerFwd nctx)
    have hc3 : ([Ev.recordStop, Ev.backwardL, Ev.collectGrads,
        Ev.clipNorm grad_clip, Ev.stepOpt 1, Ev.accumL] : List Ev).count
        (Ev.stepOpt 1) = 1 := by decide
    have hc4 : (if i % log_interval = 0 ∧ 0 < i then [Ev.logPrint]
        else ([] : List Ev)).count (Ev.stepOpt 1) = 0 := by
      split <;> decide
    omega
  · refine ⟨3, 4 + 2 * nctx, 5 + 2 * nctx, 7 + 2 * nctx, 8 + 2 * nctx,
      by omega, by omega, by omega, by omega, ?_, ?_, ?_, ?_, ?_, ?_⟩
    · rw [batchTrace]
      rw [List.get?_append (by
        simp only [List.length_append, List.length_cons, List.length_nil, hI]
        omega)]
      rw [List.get?_append (by
        simp only [List.length_append, List.length_cons, List.length_nil, hI]
        omega)]
      rw [List.get?_append (by
        simp only [List.length_cons, List.length_nil]
        omega)]
      rfl
    · have h := hpost 0 (by omega)
      rwa [Nat.add_zero] at h
    · have h := hpost 1 (by omega)
      rwa [show 4 + 2 * nctx + 1 = 5 + 2 * nctx by omega] at h
    · have h := hpost 3 (by omega)
      rwa [show 4 + 2 * nctx + 3 = 7 + 2 * nctx by omega] at h
    · have h := hpost 4 (by omega)
      rwa [show 4 + 2 * nctx + 4 = 8 + 2 * nctx by omega] at h
    · intro j hj
      refine ⟨4 + 2 * j, 5 + 2 * j, by omega, by omega, by omega, ?_, ?_⟩
      · rw [batchTrace]
        rw [List.get?_append (by
          simp only [List.length_append, List.length_cons, List.length_nil, hI]
          omega)]
        rw [List.get?_append (by
          simp only [List.length_append, List.length_cons, List.length_nil, hI]
          omega)]
        rw [List.get?_append_right (by
          simp only [List.length_cons, List.length_nil]
          omega)]
        rw [show 4 + 2 * j -
            ([Ev.splitData, Ev.splitTarget, Ev.detachH, Ev.recordStart] :
              List Ev).length = 2 * j by
          simp only [List.length_cons, List.length_nil]
          omega]
        exact (innerFwd_get? nctx j hj).1
      · rw [batchTrace]
        rw [List.get?_append (by
          simp only [List.length_append, List.length_cons, List.length_nil, hI]
          omega)]
        rw [List.get?_append (by
          simp only [List.length_append, List.length_cons, List.length_nil, hI]
          omega)]
        rw [List.get?_append_right (by
          simp only [List.length_cons, List.length_nil]
          omega)]
        rw [show 5 + 2 * j -
            ([Ev.splitData, Ev.splitTarget, Ev.detachH, Ev.recordStart] :
              List Ev).length = 2 * j + 1 by
          simp only [List.length_cons, List.length_nil]
          omega]
        exact (innerFwd_get? nctx j hj).2

/-- Closed witness for C1 at one device context and batch index 0. -/
theorem C1_witness :
    (batchTrace 1 0).count (Ev.stepOpt 1) = 1 ∧
    ∃ rs re b c s : Nat,
      rs < re ∧ re < b ∧ b < c ∧ c < s ∧
      (batchTrace 1 0).get? rs = some Ev.recordStart ∧
      (batchTrace 1 0).get? re = some Ev.recordStop ∧
      (batchTrace 1 0).get? b = some Ev.backwardL ∧
      (batchTrace 1 0).get? c = some (Ev.clipNorm grad_clip) ∧
      (batchTrace 1 0).get? s = some (Ev.stepOpt 1) ∧
      ∀ j, j < 1 → ∃ f l : Nat,
        rs < f ∧ f < l ∧ l < re ∧
        (batchTrace 1 0).get? f = some (Ev.fwd j) ∧
        (batchTrace 1 0).get? l = some (Ev.lossCalc j) :=
  C1_train_batch_order 1 0

/-- A list without optimizer steps trivially satisfies `clipBeforeStep`. -/
theorem clipBeforeStep_of_not_mem (l : List Ev) (h : Ev.stepOpt 1 ∉ l) :
    clipBeforeStep l := by
  intro k hk
  exact absurd (List.get?_mem hk) h

/-- `clipBeforeStep` is preserved by appending, provided the right part does
not begin with a step. -/
theorem clipBeforeStep_append (a b : List Ev) (ha : clipBeforeStep a)
    (hb : clipBeforeStep b) (hhead : b.head? ≠ some (Ev.stepOpt 1)) :
    clipBeforeStep (a ++ b) := by
  intro k hk
  rcases Nat.lt_or_ge (k + 1) a.length with hlt | hge
  · rw [List.get?_append hlt] at hk
    rw [List.get?_append (by omega)]
    exact ha k hk
  · rcases Nat.eq_or_lt_of_le hge with heq | hgt
    · rw [List.get?_append_right (by omega),
        show k + 1 - a.length = 0 by omega, List.get?_zero] at hk
      exact absurd hk hhead
    · rw [List.get?_append_right (by omega)] at hk
      rw [List.get?_append_right (by omega)]
      rw [show k + 1 - a.length = (k - a.length) + 1 by omega] at hk
      exact hb _ hk

/-- The post-backward tail of a batch trace satisfies `clipBeforeStep`: its
only step is immediately preceded by the clip. -/
theorem clipBeforeStep_batchTrace (nctx i : Nat) :
    clipBeforeStep (batchTrace nctx i) := by
  have hDmem : Ev.stepOpt 1 ∉ Ev.accumL ::
      (if i % log_interval = 0 ∧ 0 < i then [Ev.logPrint] else []) := by
    split <;> decide
  have htail : clipBeforeStep ([Ev.clipNorm grad_clip, Ev.stepOpt 1] ++
      (Ev.accumL ::
        (if i % log_interval = 0 ∧ 0 < i then [Ev.logPrint] else []))) := by
    intro k hk
    match k with
    | 0 => rfl
    | k' + 1 =>
      exfalso
      have hk2 : (Ev.accumL ::
          (if i % log_interval = 0 ∧ 0 < i then [Ev.logPrint] else [])).get? k' =
          some (Ev.stepOpt 1) := hk
      exact hDmem (List.get?_mem hk2)
  have hbt : batchTrace nctx i =
      ([Ev.splitData, Ev.splitTarget, Ev.detachH, Ev.recordStart] ++
        innerFwd nctx ++ [Ev.recordStop, Ev.backwardL, Ev.collectGrads]) ++
      ([Ev.clipNorm grad_clip, Ev.stepOpt 1] ++
        (Ev.accumL ::
          (if i % log_interval = 0 ∧ 0 < i then [Ev.logPrint] else []))) := by
    rw [batchTrace]
    simp [List.append_assoc]
  rw [hbt]
  apply clipBeforeStep_append _ _ ?_ htail (by simp)
  apply clipBeforeStep_of_not_mem
  simp [stepOpt_not_mem_innerFwd nctx]

/-- A flattened sequence of batch traces never starts with a step. -/
theorem flatten_head?_ne_step (L : List (List Ev))
    (hall : ∀ l ∈ L, l.head? = some Ev.splitData) :
    L.flatten.head? ≠ some (Ev.stepOpt 1) := by
  induction L with
  | nil => simp
  | cons l L ih =>
    rw [List.flatten_cons]
    match l with
    | [] =>
      have h := hall [] (by simp)
      simp at h
    | e :: l' =>
      have h := hall (e :: l') (by simp)
      simp only [List.head?_cons, Option.some.injEq] at h
      subst h
      simp

/-- `clipBeforeStep` lifts through flattening batch traces. -/
theorem clipBeforeStep_flatten (L : List (List Ev))
    (hall : ∀ l ∈ L, clipBeforeStep l ∧ l.head? = some Ev.splitData) :
    clipBeforeStep L.flatten := by
  induction L with
  | nil =>
    intro k hk
    simp at hk
  | cons l L ih =>
    rw [List.flatten_cons]
    exact clipBeforeStep_append _ _ (hall l (by simp)).1
      (ih fun x hx => hall x (by simp [hx]))
      (flatten_head?_ne_step L fun x hx => (hall x (by simp [hx])).2)

/-- The whole epoch trace has every step immediately preceded by the clip. -/
theorem clipBeforeStep_epochTrace (nctx nb : Nat) :
    clipBeforeStep (epochTrace nctx nb) := by
  rw [epochTrace]
  apply clipBeforeStep_flatten
  intro l hl
  rcases List.mem_map.mp hl with ⟨m, _, rfl⟩
  exact ⟨clipBeforeStep_batchTrace nctx m, rfl⟩

/-- Scaling every gradient entry scales the global norm by the absolute
factor. -/
theorem gnorm_scale (gs : List ℝ) (t : ℝ) :
    gnorm (gs.map (fun g => g * t)) = |t| * gnorm gs := by
  rw [gnorm, gnorm, List.map_map]
  have h : ((fun g : ℝ => g ^ 2) ∘ fun g : ℝ => g * t) =
      fun g : ℝ => g ^ 2 * t ^ 2 := by
    funext g
    simp [mul_pow]
  rw [h, List.sum_map_mul_right, Real.sqrt_mul
    (List.sum_nonneg fun x hx => by
      rcases List.mem_map.mp hx with ⟨g, _, rfl⟩
      positivity),
    Real.sqrt_sq_eq_abs, mul_comm]

/-- The global norm is nonnegative. -/
theorem gnorm_nonneg (gs : List ℝ) : 0 ≤ gnorm gs := Real.sqrt_nonneg _

/-- C7: in the train trace every optimizer step is immediately preceded by
the global-norm clip at threshold `grad_clip = 0.25`, and the clip primitive
(modelled by its contract) leaves the gradients unchanged when their global
L2 norm is at most 0.25, and otherwise rescales them jointly so the global
norm becomes exactly 0.25 — in particular it never exceeds 0.25. -/
theorem C7_clip_before_every_step :
    (∀ nctx nb, clipBeforeStep (epochTrace nctx nb)) ∧
    grad_clip = 1/4 ∧
    (∀ gs : List ℝ, gnorm gs ≤ ((grad_clip : ℚ) : ℝ) →
      clip_global_norm gs ((grad_clip : ℚ) : ℝ) = gs) ∧
    (∀ gs : List ℝ,
      gnorm (clip_global_norm gs ((grad_clip : ℚ) : ℝ)) ≤ ((grad_clip : ℚ) : ℝ)) := by
  have hc : (0 : ℝ) < ((grad_clip : ℚ) : ℝ) := by
    rw [grad_clip]
    norm_num
  refine ⟨clipBeforeStep_epochTrace, rfl, ?_, ?_⟩
  · intro gs hle
    rw [clip_global_norm, if_pos hle]
  · intro gs
    rw [clip_global_norm]
    by_cases hle : gnorm gs ≤ ((grad_clip : ℚ) : ℝ)
    · rw [if_pos hle]
      exact hle
    · rw [if_neg hle]
      push_neg at hle
      have hpos : 0 < gnorm gs := lt_trans hc hle
      have h := gnorm_scale gs (((grad_clip : ℚ) : ℝ) / gnorm gs)
      rw [h, abs_of_nonneg (by positivity), div_mul_cancel₀ _ (ne_of_gt hpos)]

/-- Closed witness for C7: a zero gradient list is below the threshold and
left unchanged. -/
theorem C7_witness :
    gnorm [(0 : ℝ)] ≤ ((grad_clip : ℚ) : ℝ) ∧
    clip_global_norm [(0 : ℝ)] ((grad_clip : ℚ) : ℝ) = [(0 : ℝ)] := by
  have h : gnorm [(0 : ℝ)] ≤ ((grad_clip : ℚ) : ℝ) := by
    rw [gnorm, grad_clip]
    norm_num
  exact ⟨h, C7_clip_before_every_step.2.2.1 [(0 : ℝ)] h⟩

/-- `split_chunks` produces exactly `n` parts. -/
theorem split_chunks_length (n : Nat) : ∀ (cols : List σ) (sz : Nat),
    (split_chunks n cols sz).length = n := by
  induction n with
  | zero => intro cols sz; rfl
  | succ n ih =>
    intro cols sz
    rw [split_chunks]
    simp [ih]

/-- Flattening the chunks recovers a prefix of the columns. -/
theorem split_chunks_flatten (n : Nat) : ∀ (cols : List σ) (sz : Nat),
    (split_chunks n cols sz).flatten = cols.take (n * sz) := by
  induction n with
  | zero => intro cols sz; simp [split_chunks]
  | succ n ih =>
    intro cols sz
    rw [split_chunks, List.flatten_cons, ih, show (n + 1) * sz = sz + n * sz by ring,
      List.take_add]

/-- Every chunk has exactly the requested size when enough columns exist. -/
theorem split_chunks_sizes (n : Nat) : ∀ (cols : List σ) (sz : Nat),
    n * sz ≤ cols.length → ∀ p ∈ split_chunks n cols sz, p.length = sz := by
  induction n with
  | zero => intro cols sz _ p hp; simp [split_chunks] at hp
  | succ n ih =>
    intro cols sz hle p hp
    rw [split_chunks] at hp
    rcases List.mem_cons.mp hp with rfl | hp'
    · rw [List.length_take]
      have : (n + 1) * sz = sz + n * sz := by ring
      omega
    · refine ih (cols.drop sz) sz ?_ p hp'
      simp only [List.length_drop]
      have hs : (n + 1) * sz = n * sz + sz := Nat.succ_mul n sz
      omega

/-- Fold form of the per-device loss accumulation. -/
theorem foldl_add_sum (f : α → ℚ) : ∀ (l : List α) (a : ℚ),
    l.foldl (fun acc p => acc + f p) a = a + (l.map f).sum := by
  intro l
  induction l with
  | nil => intro a; simp
  | cons x xs ih =>
    intro a
    simp only [List.foldl_cons, List.map_cons, List.sum_cons, ih]
    ring

/-- C6: for every training batch, `split_and_load` with `even_split=True`
cuts the batch axis (the list of batch columns) into `len(context)` parts of
equal size `batch_size / len(context)` whose concatenation is the original
batch, and the backpropagated loss is the sum of the per-device loss sums
each weighted by `1 / (len(context) * X.size)`. -/
theorem C6_even_split_and_loss_weights :
    (∀ (σ : Type) (cols : List σ) (n : Nat), 0 < n → n ∣ cols.length →
      (split_and_load cols n).length = n ∧
      (∀ p ∈ split_and_load cols n, p.length = cols.length / n) ∧
      (split_and_load cols n).flatten = cols) ∧
    (∀ (n : Nat) (devLs : List (List ℚ × Nat)),
      train_batch_loss n devLs =
        (devLs.map (fun p => p.1.sum / ((n : ℚ) * (p.2 : ℚ)))).sum) := by
  constructor
  · intro σ cols n hn hdvd
    have hmul : n * (cols.length / n) = cols.length := Nat.mul_div_cancel' hdvd
    refine ⟨split_chunks_length n cols _, ?_, ?_⟩
    · exact split_chunks_sizes n cols _ (by omega)
    · rw [split_and_load, split_chunks_flatten, hmul, List.take_length]
  · intro n devLs
    rw [train_batch_loss, foldl_add_sum, zero_add]

/-- Closed witness for C6 on four batch columns split across two devices. -/
theorem C6_witness :
    ((0 < 2 ∧ 2 ∣ ([10, 11, 12, 13] : List Nat).length) ∧
      ((split_and_load [10, 11, 12, 13] 2).length = 2 ∧
        (∀ p ∈ split_and_load [10, 11, 12, 13] 2,
          p.length = ([10, 11, 12, 13] : List Nat).length / 2) ∧
        (split_and_load ([10, 11, 12, 13] : List Nat) 2).flatten =
          [10, 11, 12, 13])) ∧
    train_batch_loss 2 [([1, 2], 2), ([3], 1)] =
      ([([1, 2], 2), ([3], 1)].map
        (fun p : List ℚ × Nat => p.1.sum / ((2 : ℚ) * (p.2 : ℚ)))).sum :=
  ⟨⟨⟨by decide, by decide⟩,
      C6_even_split_and_loss_weights.1 Nat [10, 11, 12, 13] 2 (by decide)
        (by decide)⟩,
    C6_even_split_and_loss_weights.2 2 [([1, 2], 2), ([3], 1)]⟩

/-- The cache-evaluation `bptt` is positive. -/
theorem cache_bptt_pos : 0 < cache_bptt := by
  rw [cache_bptt]
  norm_num

/-- `evaluate_cache` evaluates only the first window: with a second window
available it returns after processing window 0. -/
theorem evaluate_cache_early (model : List α × List α → σ → List ℝ × σ)
    (dS : σ → σ) (bs t : Nat) (ht : 0 < t) (ds : List α) (s0 : σ)
    (hlen : t + 1 < ds.length) :
    evaluate_cache model dS bs t ht ds s0 =
      (nll_sum (model (ds.take t, (ds.drop 1).take t) s0).1 / (bs : ℝ)) / (t : ℝ) := by
  have hgb : get_batch t ds 0 none = (ds.take t, (ds.drop 1).take t) := by
    simp only [get_batch, seq_len_arg]
    rw [show min t (ds.length - 1 - 0) = t by omega, List.drop_zero]
  rw [evaluate_cache, evaluate_cache_loop, dif_pos (by omega),
    if_neg (by omega)]
  simp only [hgb]
  rw [evaluate_cache_loop]
  rw [dif_pos (by omega), if_pos (by omega)]
  rw [Nat.zero_add, zero_add]

/-- C8: when `len(data_source) > bptt + 1` (with `bptt = 2000` at call
time), `evaluate_cache` returns at the start of the second window with
`total_L / bptt` — the negative-log loss of the first window divided by the
batch size and by `bptt` — so only the first window (tokens 0..bptt) is
evaluated: the result only depends on the first `bptt + 1` tokens. -/
theorem C8_evaluate_cache_early_return
    (model : List α × List α → σ → List ℝ × σ) (dS : σ → σ) (bs : Nat)
    (ds : List α) (s0 : σ) (hlen : cache_bptt + 1 < ds.length) :
    evaluate_cache model dS bs cache_bptt cache_bptt_pos ds s0 =
      (nll_sum (model (ds.take cache_bptt, (ds.drop 1).take cache_bptt) s0).1 /
        (bs : ℝ)) / (cache_bptt : ℝ) ∧
    get_batch cache_bptt ds 0 none =
      (ds.take cache_bptt, (ds.drop 1).take cache_bptt) ∧
    cache_bptt = 2000 ∧
    (∀ ds' : List α, cache_bptt + 1 < ds'.length →
      ds'.take (cache_bptt + 1) = ds.take (cache_bptt + 1) →
      evaluate_cache model dS bs cache_bptt cache_bptt_pos ds' s0 =
        evaluate_cache model dS bs cache_bptt cache_bptt_pos ds s0) := by
  have ht := cache_bptt_pos
  refine ⟨evaluate_cache_early model dS bs cache_bptt cache_bptt_pos ds s0 hlen,
    ?_, rfl, ?_⟩
  · simp only [get_batch, seq_len_arg]
    rw [show min cache_bptt (ds.length - 1 - 0) = cache_bptt by omega,
      List.drop_zero]
  · intro ds' hlen' htake
    have e1 : ds'.take cache_bptt = ds.take cache_bptt := by
      have h := congrArg (List.take cache_bptt) htake
      simp only [List.take_take] at h
      rwa [min_eq_left (by omega)] at h
    have e2 : (ds'.drop 1).take cache_bptt = (ds.drop 1).take cache_bptt := by
      have h := congrArg (List.drop 1) htake
      simp only [List.drop_take] at h
      rwa [Nat.add_sub_cancel] at h
    rw [evaluate_cache_early model dS bs cache_bptt cache_bptt_pos ds' s0 hlen',
      evaluate_cache_early model dS bs cache_bptt cache_bptt_pos ds s0 hlen,
      e1, e2]

/-- Closed witness for C8 on a 2002-token sequence with a constant model. -/
theorem C8_witness :
    (cache_bptt + 1 < demo_long_ds.length) ∧
    (evaluate_cache demo_cmodel id 1 cache_bptt cache_bptt_pos demo_long_ds () =
        (nll_sum (demo_cmodel (demo_long_ds.take cache_bptt,
            (demo_long_ds.drop 1).take cache_bptt) ()).1 / ((1 : Nat) : ℝ)) /
          (cache_bptt : ℝ) ∧
      get_batch cache_bptt demo_long_ds 0 none =
        (demo_long_ds.take cache_bptt, (demo_long_ds.drop 1).take cache_bptt) ∧
      cache_bptt = 2000 ∧
      (∀ ds' : List Nat, cache_bptt + 1 < ds'.length →
        ds'.take (cache_bptt + 1) = demo_long_ds.take (cache_bptt + 1) →
        evaluate_cache demo_cmodel id 1 cache_bptt cache_bptt_pos ds' () =
          evaluate_cache demo_cmodel id 1 cache_bptt cache_bptt_pos
            demo_long_ds ())) :=
  ⟨by rw [demo_long_ds, List.length_replicate, cache_bptt]; omega,
    C8_evaluate_cache_early_return demo_cmodel id 1 demo_long_ds ()
      (by rw [demo_long_ds, List.length_replicate, cache_bptt]; omega)⟩

/-- C10: at the end of every epoch exactly one of two branches runs.  If the
epoch's validation loss improves on the best seen so far, the best value is
updated, the test set is evaluated once, the parameters are checkpointed,
and both the function's `lr` and the trainer's learning rate are unchanged;
otherwise nothing is checkpointed or test-evaluated and the trainer's
learning rate is set to `0.25` times the function's current `lr` (which is
updated to the same value). -/
theorem C10_epoch_end_dichotomy (epoch : Nat) (val_L : ℚ) (st : EpochSt) :
    (val_lt val_L st.best_val = true →
      epoch_end epoch val_L st =
        { best_val := some val_L, lr := st.lr, trainer_lr := st.trainer_lr,
          saved := st.saved ++ [epoch], test_evals := st.test_evals + 1 }) ∧
    (val_lt val_L st.best_val = false →
      epoch_end epoch val_L st =
        { best_val := st.best_val, lr := st.lr * (1/4),
          trainer_lr := st.lr * (1/4), saved := st.saved,
          test_evals := st.test_evals }) := by
  constructor
  · intro h
    rw [epoch_end, if_pos h]
  · intro h
    rw [epoch_end, if_neg (by rw [h]; exact Bool.false_ne_true)]

/-- Closed witness for C10: an improving first epoch checkpoints and keeps
the learning rate; a non-improving second epoch quarters it. -/
theorem C10_witness :
    (val_lt (1/2) (none : Option ℚ) = true ∧
      epoch_end 0 (1/2) ⟨none, 20, 20, [], 0⟩ =
        ⟨some (1/2), 20, 20, [0], 1⟩) ∧
    (val_lt (3/4) (some (1/2 : ℚ)) = false ∧
      epoch_end 1 (3/4) ⟨some (1/2), 20, 20, [0], 1⟩ =
        ⟨some (1/2), 5, 5, [0], 1⟩) := by
  have hv : val_lt (3/4) (some (1/2 : ℚ)) = false := by
    norm_num [val_lt]
  refine ⟨⟨rfl, ?_⟩, ⟨hv, ?_⟩⟩
  · rw [(C10_epoch_end_dichotomy 0 (1/2) ⟨none, 20, 20, [], 0⟩).1 rfl]
    norm_num [EpochSt.mk.injEq]
  · rw [(C10_epoch_end_dichotomy 1 (3/4) ⟨some (1/2), 20, 20, [0], 1⟩).2 hv]
    norm_num [EpochSt.mk.injEq]

/-- The notebook's `evaluate_cache` factors through the probability
sequences the cache model outputs: its result is the negative-log-sum
aggregation `cache_nll_result` of those sequences alone. -/
theorem evaluate_cache_factors (model : List α × List α → σ → List ℝ × σ)
    (dS : σ → σ) (bs t : Nat) (ht : 0 < t) (ds : List α) (s0 : σ) :
    evaluate_cache model dS bs t ht ds s0 =
      cache_nll_result bs t ds.length (cache_outs_loop model dS t ht ds 0 s0) := by
  rw [evaluate_cache, evaluate_cache_loop, cache_outs_loop]
  by_cases h1 : 0 < ds.length - 1
  · rw [dif_pos h1, dif_pos h1, if_neg (by omega), if_neg (by omega)]
    simp only [Nat.zero_add, zero_add]
    rw [evaluate_cache_loop, cache_outs_loop]
    by_cases h2 : t < ds.length - 1
    · rw [dif_pos h2, dif_pos h2, if_pos rfl, if_pos rfl, cache_nll_result,
        if_pos h2]
      simp
    · rw [dif_neg h2, dif_neg h2, cache_nll_result, if_neg h2]
      simp
  · rw [dif_neg h1, dif_neg h1, cache_nll_result,
      if_neg (by omega : ¬ t < ds.length - 1)]
    simp

/-- C5 (amended): the cache-probability blending is not implemented in the
notebook; the cache model (built by the library's `get_cache_model`, which
receives `window`, `theta` and `lambdas`) is consumed wholesale.  The
notebook's `evaluate_cache` glue only threads the cache state through the
opaque model call and sums negative log-probabilities: its result factors
through the model's output probability sequences via `cache_nll_result`, so
any two models with the same outputs — however they blend internally — give
identical results. -/
theorem C5_blending_from_library (bs t : Nat) (ht : 0 < t) :
    (∀ (α σ : Type) (model : List α × List α → σ → List ℝ × σ) (dS : σ → σ)
      (ds : List α) (s0 : σ),
      evaluate_cache model dS bs t ht ds s0 =
        cache_nll_result bs t ds.length
          (cache_outs_loop model dS t ht ds 0 s0)) ∧
    (∀ (α σ1 σ2 : Type) (model1 : List α × List α → σ1 → List ℝ × σ1)
      (model2 : List α × List α → σ2 → List ℝ × σ2) (dS1 : σ1 → σ1)
      (dS2 : σ2 → σ2) (ds : List α) (s1 : σ1) (s2 : σ2),
      cache_outs_loop model1 dS1 t ht ds 0 s1 =
        cache_outs_loop model2 dS2 t ht ds 0 s2 →
      evaluate_cache model1 dS1 bs t ht ds s1 =
        evaluate_cache model2 dS2 bs t ht ds s2) := by
  refine ⟨fun α σ model dS ds s0 =>
    evaluate_cache_factors model dS bs t ht ds s0, ?_⟩
  intro α σ1 σ2 model1 model2 dS1 dS2 ds s1 s2 houts
  rw [evaluate_cache_factors model1 dS1 bs t ht ds s1,
    evaluate_cache_factors model2 dS2 bs t ht ds s2, houts]

/-- C5 fails as stated: two cache models that blend different internal cache
distributions (`[1/2]` vs `[1/4]`) with different mixing weights (`1/2` vs
`0`) but emit the same blended probabilities are indistinguishable to the
notebook's `evaluate_cache` — the notebook code performs no combination of
the cache distribution with the softmax distribution; that step lives inside
the library model it consumes. -/
theorem C5_counterexample :
    blendDist (1/2) demo_cache1 demo_soft = blendDist 0 demo_cache2 demo_soft ∧
    demo_cache1 ≠ demo_cache2 ∧
    evaluate_cache demo_model1 id 1 cache_bptt cache_bptt_pos demo_ds () =
      evaluate_cache demo_model2 id 1 cache_bptt cache_bptt_pos demo_ds () := by
  have hblend : blendDist (1/2) demo_cache1 demo_soft =
      blendDist 0 demo_cache2 demo_soft := by
    rw [blendDist, blendDist, demo_cache1, demo_cache2, demo_soft]
    norm_num
  refine ⟨hblend, ?_, ?_⟩
  · rw [demo_cache1, demo_cache2]
    intro h
    have h2 : (1/2 : ℝ) = 1/4 := by
      injection h
    norm_num at h2
  · rw [evaluate_cache_factors, evaluate_cache_factors]
    congr 1
    rw [cache_outs_loop, cache_outs_loop]
    rw [dif_pos (by norm_num [demo_ds]), if_neg (by norm_num [cache_bptt])]
    rw [dif_pos (by norm_num [demo_ds]), if_neg (by norm_num [cache_bptt])]
    simp only [demo_model1, demo_model2, hblend]
    rw [cache_outs_loop, cache_outs_loop]
    rw [dif_neg (by norm_num [demo_ds, cache_bptt])]
    rw [dif_neg (by norm_num [demo_ds, cache_bptt])]

/-- Closed witness for C5's factoring at the demonstration model. -/
theorem C5_witness :
    (0 < cache_bptt) ∧
    evaluate_cache demo_model1 id 1 cache_bptt cache_bptt_pos demo_ds () =
      cache_nll_result 1 cache_bptt demo_ds.length
        (cache_outs_loop demo_model1 id cache_bptt cache_bptt_pos demo_ds 0 ()) :=
  ⟨cache_bptt_pos,
    (C5_blending_from_library 1 cache_bptt cache_bptt_pos).1 Nat Unit
      demo_model1 id demo_ds ()⟩

/-! ### Error-propagation lemmas (claim C4) -/

/-- Bind on a success reduces to the continuation. -/
theorem except_ok_bind (a : α) (f : α → Except ε β) :
    (Except.ok a >>= f) = f a := rfl

/-- Bind on an error short-circuits. -/
theorem except_error_bind (e : ε) (f : α → Except ε β) :
    ((Except.error e : Except ε α) >>= f) = Except.error e := rfl

/-- Both slicing calls of `get_batchE` propagate their errors unchanged, and
a fully successful run returns the pair. -/
theorem get_batchE_prop (ε α : Type) (sliceOp : Nat → Nat → Except ε (List α))
    (B len i : Nat) (e : ε) :
    (sliceOp i (i + min B (len - 1 - i)) = .error e →
      get_batchE sliceOp B len i = .error e) ∧
    (∀ d, sliceOp i (i + min B (len - 1 - i)) = .ok d →
      sliceOp (i + 1) (i + 1 + min B (len - 1 - i)) = .error e →
      get_batchE sliceOp B len i = .error e) ∧
    (∀ d tg, sliceOp i (i + min B (len - 1 - i)) = .ok d →
      sliceOp (i + 1) (i + 1 + min B (len - 1 - i)) = .ok tg →
      get_batchE sliceOp B len i = .ok (d, tg)) :=
  ⟨fun h => by
      simp only [get_batchE, h]
      rfl,
    fun d h1 h2 => by
      simp only [get_batchE, h1, h2]
      rfl,
    fun d tg h1 h2 => by
      simp only [get_batchE, h1, h2]
      rfl⟩

mutual

/-- Any error returned by the fallible `detach` originates verbatim from the
per-tensor `detach` call on one of the leaves. -/
theorem detachTE_origination (det : α → Except ε α) (e : ε) :
    ∀ h : HTree α, detachTE det h = .error e → ∃ a ∈ leavesT h, det a = .error e
  | .leaf a => fun hrun => by
    rw [detachTE] at hrun
    cases hd : det a with
    | error e' =>
      rw [hd] at hrun
      have hrun' : (Except.error e' : Except ε (HTree α)) = .error e := hrun
      injection hrun' with he
      subst he
      exact ⟨a, by rw [leavesT]; exact List.mem_singleton.mpr rfl, hd⟩
    | ok b =>
      rw [hd] at hrun
      have hrun' : (Except.ok (HTree.leaf b) : Except ε (HTree α)) = .error e :=
        hrun
      simp at hrun'
  | .node f => fun hrun => by
    rw [detachTE] at hrun
    cases hd : detachFE det f with
    | error e' =>
      rw [hd] at hrun
      have hrun' : (Except.error e' : Except ε (HTree α)) = .error e := hrun
      injection hrun' with he
      obtain ⟨a, ha, hae⟩ := detachFE_origination det e' f hd
      rw [he] at hae
      exact ⟨a, by rw [leavesT]; exact ha, hae⟩
    | ok f' =>
      rw [hd] at hrun
      have hrun' : (Except.ok (HTree.node f') : Except ε (HTree α)) = .error e :=
        hrun
      simp at hrun'

/-- Forest part of `detachTE_origination`. -/
theorem detachFE_origination (det : α → Except ε α) (e : ε) :
    ∀ f : HForest α, detachFE det f = .error e → ∃ a ∈ leavesF f, det a = .error e
  | .nil => fun hrun => by
    rw [detachFE] at hrun
    have hrun' : (Except.ok (HForest.nil : HForest α) : Except ε (HForest α)) =
        .error e := hrun
    simp at hrun'
  | .cons t f => fun hrun => by
    rw [detachFE] at hrun
    cases ht : detachTE det t with
    | error e' =>
      rw [ht] at hrun
      have hrun' : (Except.error e' : Except ε (HForest α)) = .error e := hrun
      injection hrun' with he
      obtain ⟨a, ha, hae⟩ := detachTE_origination det e' t ht
      rw [he] at hae
      exact ⟨a, by rw [leavesF]; exact List.mem_append_left _ ha, hae⟩
    | ok t' =>
      rw [ht] at hrun
      cases hf : detachFE det f with
      | error e' =>
        rw [hf] at hrun
        have hrun' : (Except.error e' : Except ε (HForest α)) = .error e := hrun
        injection hrun' with he
        obtain ⟨a, ha, hae⟩ := detachFE_origination det e' f hf
        rw [he] at hae
        exact ⟨a, by rw [leavesF]; exact List.mem_append_right _ ha, hae⟩
      | ok f' =>
        rw [hf] at hrun
        have hrun' : (Except.ok (HForest.cons t' f') : Except ε (HForest α)) =
            .error e := hrun
        simp at hrun'

end

mutual

/-- When the per-tensor `detach` always succeeds, the fallible `detach`
returns the mapped tree. -/
theorem detachTE_success (det : α → Except ε α) (g : α → α)
    (hdet : ∀ a, det a = .ok (g a)) :
    ∀ h : HTree α, detachTE det h = .ok (hmapT g h)
  | .leaf a => by
    rw [detachTE, hdet a]
    rfl
  | .node f => by
    rw [detachTE, detachFE_success det g hdet f]
    rfl

/-- Forest part of `detachTE_success`. -/
theorem detachFE_success (det : α → Except ε α) (g : α → α)
    (hdet : ∀ a, det a = .ok (g a)) :
    ∀ f : HForest α, detachFE det f = .ok (hmapF g f)
  | .nil => rfl
  | .cons t f => by
    rw [detachFE, detachTE_success det g hdet t,
      detachFE_success det g hdet f]
    rfl

end

/-- An error from `detach` on the first tensor of a hidden-state list
propagates unchanged. -/
theorem detachTE_head_error (det : α → Except ε α) (a : α) (f : HForest α)
    (e : ε) (h : det a = .error e) :
    detachTE det (HTree.node (HForest.cons (HTree.leaf a) f)) = .error e := by
  rw [detachTE, detachFE, detachTE, h]
  rfl

/-- Any error `evaluate` returns originates verbatim from one of its
framework calls (`as_in_context`, the model forward pass, or the loss). -/
theorem evaluateE_go_origination (asCtx : τ → Except ε τ)
    (fwdOp : τ → η → Except ε (ω × η)) (lossOp : ω → τ → Except ε (List ℚ))
    (dH : η → η) (e : ε) :
    ∀ (batches : List (τ × τ)) (h : η) (total : ℚ) (ntotal : Nat),
      evaluateE_go asCtx fwdOp lossOp dH batches h total ntotal = .error e →
      (∃ x, asCtx x = .error e) ∨ (∃ x hh, fwdOp x hh = .error e) ∨
        (∃ o t, lossOp o t = .error e) := by
  intro batches
  induction batches with
  | nil =>
    intro h total ntotal hrun
    rw [evaluateE_go] at hrun
    have hrun' : (Except.ok (total / (ntotal : ℚ)) : Except ε ℚ) = .error e :=
      hrun
    simp at hrun'
  | cons b rest ih =>
    obtain ⟨d, tg⟩ := b
    intro h total ntotal hrun
    rw [evaluateE_go] at hrun
    cases h1 : asCtx d with
    | error e1 =>
      rw [h1] at hrun
      have hrun' : (Except.error e1 : Except ε ℚ) = .error e := hrun
      injection hrun' with he
      exact Or.inl ⟨d, by rw [h1, he]⟩
    | ok d' =>
      simp only [h1, except_ok_bind] at hrun
      cases h2 : asCtx tg with
      | error e2 =>
        rw [h2] at hrun
        have hrun' : (Except.error e2 : Except ε ℚ) = .error e := hrun
        injection hrun' with he
        exact Or.inl ⟨tg, by rw [h2, he]⟩
      | ok tg' =>
        simp only [h2, except_ok_bind] at hrun
        cases h3 : fwdOp d' h with
        | error e3 =>
          rw [h3] at hrun
          have hrun' : (Except.error e3 : Except ε ℚ) = .error e := hrun
          injection hrun' with he
          exact Or.inr (Or.inl ⟨d', h, by rw [h3, he]⟩)
        | ok r =>
          simp only [h3, except_ok_bind] at hrun
          cases h4 : lossOp r.1 tg' with
          | error e4 =>
            rw [h4] at hrun
            have hrun' : (Except.error e4 : Except ε ℚ) = .error e := hrun
            injection hrun' with he
            exact Or.inr (Or.inr ⟨r.1, tg', by rw [h4, he]⟩)
          | ok L =>
            simp only [h4, except_ok_bind] at hrun
            exact ih (dH r.2) (total + L.sum) (ntotal + L.length) hrun

/-- A failing `as_in_context` on the first batch of `evaluate` propagates
unchanged. -/
theorem evaluateE_first_error (asCtx : τ → Except ε τ)
    (fwdOp : τ → η → Except ε (ω × η)) (lossOp : ω → τ → Except ε (List ℚ))
    (dH : η → η) (d tg : τ) (rest : List (τ × τ)) (h0 : η) (e : ε)
    (h : asCtx d = .error e) :
    evaluateE asCtx fwdOp lossOp dH ((d, tg) :: rest) h0 = .error e := by
  rw [evaluateE, evaluateE_go, h]
  rfl

/-- Any error of the epoch batch loop originates from a batch body. -/
theorem train_batchesE_origination (body : Nat → Except ε ℚ) (e : ε) :
    ∀ (n i : Nat), train_batchesE body i n = .error e →
      ∃ k, body k = .error e := by
  intro n
  induction n with
  | zero =>
    intro i hrun
    rw [train_batchesE] at hrun
    have hrun' : (Except.ok () : Except ε Unit) = .error e := hrun
    simp at hrun'
  | succ n ih =>
    intro i hrun
    rw [train_batchesE] at hrun
    cases hb : body i with
    | error e1 =>
      rw [hb] at hrun
      have hrun' : (Except.error e1 : Except ε Unit) = .error e := hrun
      injection hrun' with he
      exact ⟨i, by rw [hb, he]⟩
    | ok v =>
      rw [hb] at hrun
      exact ih (i + 1) hrun

/-- Any error `train` returns originates verbatim from a batch body, a
validation evaluation, a test evaluation, or a checkpoint save. -/
theorem trainE_epochs_origination (nb : Nat) (body : Nat → Nat → Except ε ℚ)
    (valE testE : Nat → Except ε ℚ) (saveE : Nat → Except ε Unit) (e : ε) :
    ∀ (n ep : Nat) (best : Option ℚ),
      trainE_epochs nb body valE testE saveE ep n best = .error e →
      (∃ a b, body a b = .error e) ∨ (∃ a, valE a = .error e) ∨
        (∃ a, testE a = .error e) ∨ (∃ a, saveE a = .error e) := by
  intro n
  induction n with
  | zero =>
    intro ep best hrun
    rw [trainE_epochs] at hrun
    have hrun' : (Except.ok () : Except ε Unit) = .error e := hrun
    simp at hrun'
  | succ n ih =>
    intro ep best hrun
    rw [trainE_epochs] at hrun
    cases hbat : train_batchesE (body ep) 0 nb with
    | error e1 =>
      rw [hbat] at hrun
      have hrun' : (Except.error e1 : Except ε Unit) = .error e := hrun
      injection hrun' with he
      obtain ⟨k, hk⟩ := train_batchesE_origination (body ep) e1 nb 0 hbat
      exact Or.inl ⟨ep, k, by rw [hk, he]⟩
    | ok u =>
      simp only [hbat, except_ok_bind] at hrun
      cases hv : valE ep with
      | error e2 =>
        rw [hv] at hrun
        have hrun' : (Except.error e2 : Except ε Unit) = .error e := hrun
        injection hrun' with he
        exact Or.inr (Or.inl ⟨ep, by rw [hv, he]⟩)
      | ok v =>
        simp only [hv, except_ok_bind] at hrun
        cases hvl : val_lt v best with
        | true =>
          rw [hvl, if_pos rfl] at hrun
          cases hte : testE ep with
          | error e3 =>
            rw [hte] at hrun
            have hrun' : (Except.error e3 : Except ε Unit) = .error e := hrun
            injection hrun' with he
            exact Or.inr (Or.inr (Or.inl ⟨ep, by rw [hte, he]⟩))
          | ok w =>
            simp only [hte, except_ok_bind] at hrun
            cases hs : saveE ep with
            | error e4 =>
              rw [hs] at hrun
              have hrun' : (Except.error e4 : Except ε Unit) = .error e := hrun
              injection hrun' with he
              exact Or.inr (Or.inr (Or.inr ⟨ep, by rw [hs, he]⟩))
            | ok z =>
              simp only [hs, except_ok_bind] at hrun
              exact ih (ep + 1) (some v) hrun
        | false =>
          rw [hvl, if_neg (by simp)] at hrun
          exact ih (ep + 1) best hrun

/-- A failing framework call in the very first training batch propagates
unchanged out of `train`. -/
theorem trainE_first_error (nb nep : Nat) (body : Nat → Nat → Except ε ℚ)
    (valE testE : Nat → Except ε ℚ) (saveE : Nat → Except ε Unit) (e : ε)
    (hnb : 0 < nb) (hnep : 0 < nep) (hb : body 0 0 = .error e) :
    trainE nb nep body valE testE saveE = .error e := by
  obtain ⟨nep', rfl⟩ : ∃ k, nep = k + 1 := ⟨nep - 1, by omega⟩
  obtain ⟨nb', rfl⟩ : ∃ k, nb = k + 1 := ⟨nb - 1, by omega⟩
  rw [trainE, trainE_epochs, train_batchesE, hb]
  rfl

/-- Any error of `evaluate_cache` originates from a cache-model call. -/
theorem evaluate_cacheE_origination (modelE : Nat → σ → Except ε (ℚ × σ))
    (dS : σ → σ) (bs t : Nat) (ht : 0 < t) (n : Nat) (e : ε) :
    ∀ (i : Nat) (total : ℚ) (s : σ),
      evaluate_cacheE_loop modelE dS bs t ht n i total s = .error e →
      ∃ j s', modelE j s' = .error e := by
  suffices hs : ∀ (m i : Nat), n - i = m → ∀ (total : ℚ) (s : σ),
      evaluate_cacheE_loop modelE dS bs t ht n i total s = .error e →
      ∃ j s', modelE j s' = .error e by
    exact fun i total s hrun => hs (n - i) i rfl total s hrun
  intro m
  induction m using Nat.strong_induction_on with
  | _ m ih =>
    intro i him total s hrun
    rw [evaluate_cacheE_loop] at hrun
    by_cases h1 : i < n - 1
    · rw [dif_pos h1] at hrun
      by_cases h2 : i = t
      · rw [if_pos h2] at hrun
        have hrun' : (Except.ok (total / (i : ℚ)) : Except ε ℚ) = .error e :=
          hrun
        simp at hrun'
      · rw [if_neg h2] at hrun
        cases hm : modelE i s with
        | error e1 =>
          rw [hm] at hrun
          have hrun' : (Except.error e1 : Except ε ℚ) = .error e := hrun
          injection hrun' with he
          exact ⟨i, s, by rw [hm, he]⟩
        | ok r =>
          rw [hm] at hrun
          exact ih (n - (i + t)) (by omega) (i + t) rfl
            (total + r.1 / (bs : ℚ)) (dS r.2) hrun
    · rw [dif_neg h1] at hrun
      have hrun' : (Except.ok (total / (n : ℚ)) : Except ε ℚ) = .error e := hrun
      simp at hrun'

/-- A failing cache-model call on the first window propagates unchanged. -/
theorem evaluate_cacheE_first_error (modelE : Nat → σ → Except ε (ℚ × σ))
    (dS : σ → σ) (bs t : Nat) (ht : 0 < t) (n : Nat) (s0 : σ) (e : ε)
    (hn : 0 < n - 1) (hm : modelE 0 s0 = .error e) :
    evaluate_cacheE_loop modelE dS bs t ht n 0 0 s0 = .error e := by
  rw [evaluate_cacheE_loop, dif_pos hn, if_neg (by omega), hm]
  rfl

/-- C4: no function defined in the notebook (`train`, `evaluate`,
`evaluate_cache`, `get_batch`, `detach`) catches, transforms, or recovers
from any exception.  In the `Except`-monad embeddings with every underlying
framework call fallible: each function's slicing/detach/forward/loss calls
propagate a failure unchanged to the caller, any error a function returns
is exactly an error some framework call produced, and a fully successful
`detach` returns the mapped tree. -/
theorem C4_no_exception_handling :
    (∀ (ε α : Type) (sliceOp : Nat → Nat → Except ε (List α))
      (B len i : Nat) (e : ε),
      (sliceOp i (i + min B (len - 1 - i)) = .error e →
        get_batchE sliceOp B len i = .error e) ∧
      (∀ d, sliceOp i (i + min B (len - 1 - i)) = .ok d →
        sliceOp (i + 1) (i + 1 + min B (len - 1 - i)) = .error e →
        get_batchE sliceOp B len i = .error e) ∧
      (∀ d tg, sliceOp i (i + min B (len - 1 - i)) = .ok d →
        sliceOp (i + 1) (i + 1 + min B (len - 1 - i)) = .ok tg →
        get_batchE sliceOp B len i = .ok (d, tg))) ∧
    (∀ (ε α : Type) (det : α → Except ε α) (e : ε),
      (∀ h, detachTE det h = .error e → ∃ a ∈ leavesT h, det a = .error e) ∧
      (∀ g : α → α, (∀ a, det a = .ok (g a)) →
        ∀ h, detachTE det h = .ok (hmapT g h)) ∧
      (∀ (a : α) (f : HForest α), det a = .error e →
        detachTE det (HTree.node (HForest.cons (HTree.leaf a) f)) =
          .error e)) ∧
    (∀ (ε τ η ω : Type) (asCtx : τ → Except ε τ)
      (fwdOp : τ → η → Except ε (ω × η)) (lossOp : ω → τ → Except ε (List ℚ))
      (dH : η → η) (e : ε),
      (∀ (batches : List (τ × τ)) (h0 : η),
        evaluateE asCtx fwdOp lossOp dH batches h0 = .error e →
        (∃ x, asCtx x = .error e) ∨ (∃ x hh, fwdOp x hh = .error e) ∨
          (∃ o t, lossOp o t = .error e)) ∧
      (∀ (d tg : τ) (rest : List (τ × τ)) (h0 : η), asCtx d = .error e →
        evaluateE asCtx fwdOp lossOp dH ((d, tg) :: rest) h0 = .error e)) ∧
    (∀ (ε : Type) (nb nep : Nat) (body : Nat → Nat → Except ε ℚ)
      (valE testE : Nat → Except ε ℚ) (saveE : Nat → Except ε Unit) (e : ε),
      (trainE nb nep body valE testE saveE = .error e →
        (∃ a b, body a b = .error e) ∨ (∃ a, valE a = .error e) ∨
          (∃ a, testE a = .error e) ∨ (∃ a, saveE a = .error e)) ∧
      (0 < nb → 0 < nep → body 0 0 = .error e →
        trainE nb nep body valE testE saveE = .error e)) ∧
    (∀ (ε σ : Type) (modelE : Nat → σ → Except ε (ℚ × σ)) (dS : σ → σ)
      (bs t : Nat) (ht : 0 < t) (n : Nat) (s0 : σ) (e : ε),
      (∀ (i : Nat) (total : ℚ) (s : σ),
        evaluate_cacheE_loop modelE dS bs t ht n i total s = .error e →
        ∃ j s', modelE j s' = .error e) ∧
      (0 < n - 1 → modelE 0 s0 = .error e →
        evaluate_cacheE_loop modelE dS bs t ht n 0 0 s0 = .error e)) := by
  refine ⟨?_, ?_, ?_, ?_, ?_⟩
  · intro ε α sliceOp B len i e
    exact get_batchE_prop ε α sliceOp B len i e
  · intro ε α det e
    exact ⟨detachTE_origination det e, fun g hdet => detachTE_success det g hdet,
      fun a f h => detachTE_head_error det a f e h⟩
  · intro ε τ η ω asCtx fwdOp lossOp dH e
    exact ⟨fun batches h0 hrun =>
        evaluateE_go_origination asCtx fwdOp lossOp dH e batches h0 0 0 hrun,
      fun d tg rest h0 h =>
        evaluateE_first_error asCtx fwdOp lossOp dH d tg rest h0 e h⟩
  · intro ε nb nep body valE testE saveE e
    exact ⟨fun hrun =>
        trainE_epochs_origination nb body valE testE saveE e nep 0 none hrun,
      fun hnb hnep hb =>
        trainE_first_error nb nep body valE testE saveE e hnb hnep hb⟩
  · intro ε σ modelE dS bs t ht n s0 e
    exact ⟨evaluate_cacheE_origination modelE dS bs t ht n e,
      fun hn hm => evaluate_cacheE_first_error modelE dS bs t ht n s0 e hn hm⟩

/-- Closed witness for C4: concretely failing framework calls propagate
their error value 7 unchanged through every notebook function. -/
theorem C4_witness :
    ((fun _ _ => Except.error 7 : Nat → Nat → Except Nat (List Nat)) 0
        (0 + min 35 (5 - 1 - 0)) = .error 7 ∧
      get_batchE ((fun _ _ => Except.error 7) :
        Nat → Nat → Except Nat (List Nat)) 35 5 0 = .error 7) ∧
    ((fun _ => Except.error 7 : Nat → Except Nat Nat) 0 = .error 7 ∧
      detachTE (fun _ => Except.error 7)
        (HTree.node (HForest.cons (HTree.leaf 0) HForest.nil)) = .error 7) ∧
    ((fun _ => Except.error 7 : Nat → Except Nat Nat) 0 = .error 7 ∧
      evaluateE (fun _ => Except.error 7)
        (fun (_ : Nat) (_ : Unit) => Except.ok ((), ()))
        (fun _ _ => Except.ok []) id [(0, 0)] () = .error 7) ∧
    ((0 < 1 ∧ 0 < 1 ∧
        (fun _ _ => Except.error 7 : Nat → Nat → Except Nat ℚ) 0 0 =
          .error 7) ∧
      trainE 1 1 (fun _ _ => Except.error 7) (fun _ => Except.ok 0)
        (fun _ => Except.ok 0) (fun _ => Except.ok ()) = .error 7) ∧
    ((0 < 3 - 1 ∧
        (fun _ _ => Except.error 7 : Nat → Unit → Except Nat (ℚ × Unit)) 0 () =
          .error 7) ∧
      evaluate_cacheE_loop (fun _ _ => Except.error 7) id 1 cache_bptt
        cache_bptt_pos 3 0 0 () = .error 7) :=
  ⟨⟨rfl, (C4_no_exception_handling.1 Nat Nat (fun _ _ => Except.error 7)
      35 5 0 7).1 rfl⟩,
    ⟨rfl, (C4_no_exception_handling.2.1 Nat Nat (fun _ => Except.error 7)
      7).2.2 0 HForest.nil rfl⟩,
    ⟨rfl, (C4_no_exception_handling.2.2.1 Nat Nat Unit Unit
      (fun _ => Except.error 7) (fun _ _ => Except.ok ((), ()))
      (fun _ _ => Except.ok []) id 7).2 0 0 [] () rfl⟩,
    ⟨⟨by decide, by decide, rfl⟩, (C4_no_exception_handling.2.2.2.1 Nat 1 1
      (fun _ _ => Except.error 7) (fun _ => Except.ok 0) (fun _ => Except.ok 0)
      (fun _ => Except.ok ()) 7).2 (by decide) (by decide) rfl⟩,
    ⟨⟨by decide, rfl⟩, (C4_no_exception_handling.2.2.2.2 Nat Unit
      (fun _ _ => Except.error 7) id 1 cache_bptt cache_bptt_pos 3 () 7).2
      (by decide) rfl⟩⟩

end LMNotebook
